import Mathlib

/-!
Shallow embedding of `rach3datautils/utils/path.py` (class `PathUtils`).

Strings are modelled as `List Char`. A `pathlib.Path` value is modelled by
its directory components together with its final name component; `str(path)`
joins all components with slashes. Python's `re` searches are modelled by
executable scanning functions specialised to the concrete patterns the
module uses; the class `\d` is modelled by the ASCII digits `0`-`9` (every
input evaluated in this development is ASCII). `$` in a pattern matches at
the end of the string or just before one final newline, as in Python.
Functions that can raise an exception return `Except PyErr`.
-/

/-- ASCII decimal digit test: the regex class `[0-9]`, and `\d` restricted
to ASCII. -/
def isDig (c : Char) : Bool := 48 ≤ c.toNat && c.toNat ≤ 57

/-- Numeric value of a digit character. -/
def dval (c : Char) : Nat := c.toNat - 48

/-- Value of a digit string, modelling Python `int()` on digit-only
strings. -/
def valD (ds : List Char) : Nat := ds.foldl (fun a c => 10 * a + dval c) 0

/-- Python `s.split("_")`: split on every underscore keeping empty pieces;
the result is never empty, and splitting the empty string gives `[""]`. -/
def splitU : List Char → List (List Char)
  | [] => [[]]
  | c :: rest =>
    match splitU rest with
    | t :: ts => if c = '_' then [] :: t :: ts else (c :: t) :: ts
    | [] => [[c]]

/-- Index of the last dot of a name: `name.rfind(".")` when a dot exists. -/
def rfindDot : List Char → Option Nat
  | [] => none
  | c :: rest =>
    match rfindDot rest with
    | some i => some (i + 1)
    | none => if c = '.' then some 0 else none

/-- Suffix of a final name component, after `pathlib.PurePath.suffix`: the
part from the last dot on, provided that dot is neither the first nor the
last character; empty otherwise. -/
def sufOf (name : List Char) : List Char :=
  match rfindDot name with
  | some i => if 0 < i ∧ i + 1 < name.length then name.drop i else []
  | none => []

/-- Stem of a final name component, after `pathlib.PurePath.stem`. -/
def stemOf (name : List Char) : List Char :=
  match rfindDot name with
  | some i => if 0 < i ∧ i + 1 < name.length then name.take i else name
  | none => name

/-- A filesystem path: directory components plus the final name component.
Mirrors the `pathlib` attributes the module reads (`name`, `stem`,
`suffix`, `str`). -/
structure PyPath where
  dirs : List (List Char)
  name : List Char
deriving DecidableEq

/-- Join path components with slashes. -/
def joinSlash : List (List Char) → List Char
  | [] => []
  | [x] => x
  | x :: xs => x ++ '/' :: joinSlash xs

/-- `str(path)`: every component, directories included, joined by `/`. -/
def strPath (f : PyPath) : List Char := joinSlash (f.dirs ++ [f.name])

/-- `file.stem.split("_")`. -/
def stemTokens (f : PyPath) : List (List Char) := splitU (stemOf f.name)

/-- `file.stem.split("_")[-1]`; the token list is never empty. -/
def lastTok (f : PyPath) : List Char := (stemTokens f).getLastD []

/-- Last `n` characters of a string (Python `s[-n:]` for `0 < n ≤ len`). -/
def lastN (n : Nat) (t : List Char) : List Char := t.drop (t.length - n)

/-- The exceptions the module can raise: `IndexError` from `[-1][0]` on an
empty token, `AttributeError` from `.group()` on a failed search,
`IdentityError` from `get_date`, `ValueError` from `strptime`, and the
explicit `raise` guarding split numbers of 100 and above (the spec's
PreconditionViolation). -/
inductive PyErr where
  | indexError
  | attrError
  | identityError
  | valueError
  | precondViolation
deriving DecidableEq

/-- The closed set of filetype tags `get_type` can produce. -/
inductive Filetype where
  | full_midi
  | split_midi
  | full_flac
  | split_flac
  | trimmed_video
  | full_video
  | video
  | split_video
  | full_audio
  | audio
deriving DecidableEq

/-- Python `$` tolerance: a match may end just before one final newline.
`stripNL` removes such a final newline, and only that one. -/
def stripNL (t : List Char) : List Char :=
  match t.getLast? with
  | some '\n' => t.dropLast
  | _ => t

/-- Full match of `\d{1,2}`: one or two digits. -/
def digits12 (ds : List Char) : Bool :=
  !ds.isEmpty && decide (ds.length ≤ 2) && ds.all isDig

/-- Whether `re.search(r"^split\d{1,2}$", t)` succeeds: `t` is `split`
followed by one or two digits, where `$` also accepts one trailing
newline. -/
def splitTokMatch (t : List Char) : Bool :=
  decide (t.take 5 = "split".data) && digits12 (stripNL (t.drop 5))

/-- Whether `re.search("(^a|^v)\\d\\d$", t)` succeeds: `t` is `a` or `v`
followed by exactly two digits, where `$` also accepts one trailing
newline. -/
def sessionTokMatch (t : List Char) : Bool :=
  match t with
  | c :: rest =>
    (decide (c = 'a') || decide (c = 'v')) &&
      decide ((stripNL rest).length = 2) && (stripNL rest).all isDig
  | [] => false

/-- Leftmost fixed-width regex search: scan start positions left to right
and return the first window of `k` characters accepted by `shp`. Models
`re.search` for the fixed-width patterns below. -/
def findWin (k : Nat) (shp : List Char → Bool) : List Char → Option (List Char)
  | [] => none
  | c :: rest =>
    if shp ((c :: rest).take k) then some ((c :: rest).take k)
    else findWin k shp rest

/-- Window shape of the date pattern `([0-9]{4})-([0-9]{2})-([0-9]{2})`. -/
def dateShape (l : List Char) : Bool :=
  match l with
  | [y1, y2, y3, y4, c1, m1, m2, c2, d1, d2] =>
    isDig y1 && isDig y2 && isDig y3 && isDig y4 && decide (c1 = '-') &&
      isDig m1 && isDig m2 && decide (c2 = '-') && isDig d1 && isDig d2
  | _ => false

/-- Window shape of the pattern `a\d{2}`. -/
def aShape (l : List Char) : Bool :=
  match l with
  | [c, d1, d2] => decide (c = 'a') && isDig d1 && isDig d2
  | _ => false

/-- Window shape of the pattern `p\d{3}`. -/
def pShape (l : List Char) : Bool :=
  match l with
  | [c, d1, d2, d3] => decide (c = 'p') && isDig d1 && isDig d2 && isDig d3
  | _ => false

/-- The search `re.search("\\d{1,2}", s)`: the leftmost run of one or two
digits, greedy, so a second digit is taken whenever the character after the
first match position is also a digit. -/
def searchD12 : List Char → Option (List Char)
  | [] => none
  | [c] => if isDig c then some [c] else none
  | c :: d :: rest =>
    if isDig c then some (if isDig d then [c, d] else [c])
    else searchD12 (d :: rest)

/-- `PathUtils.is_split`: some stem token matches `^split\d{1,2}$`. -/
def isSplit (f : PyPath) : Bool := (stemTokens f).any splitTokMatch

/-- `PathUtils.is_valid_video`: evaluates `stem.split("_")[-1][0]` first,
raising IndexError on an empty last token, then compares the suffix. -/
def isValidVideo (f : PyPath) : Except PyErr Bool :=
  match lastTok f with
  | [] => .error .indexError
  | c :: _ => .ok (decide (c = 'p') && decide (sufOf f.name = ".mp4".data))

/-- `PathUtils.is_valid_audio`: same shape as `is_valid_video`. -/
def isValidAudio (f : PyPath) : Except PyErr Bool :=
  match lastTok f with
  | [] => .error .indexError
  | c :: _ => .ok (decide (c = 'p') && decide (sufOf f.name = ".aac".data))

/-- The loop of `PathUtils.get_session_no` over the stem tokens: at the
first token the session pattern matches, return `"a"` plus the token's last
two characters (`"a" + i[-2:]`). -/
def sessionScan : List (List Char) → Option (List Char)
  | [] => none
  | t :: ts => if sessionTokMatch t then some ('a' :: lastN 2 t) else sessionScan ts

/-- `PathUtils.get_session_no`. -/
def getSessionNo (f : PyPath) : Option (List Char) := sessionScan (stemTokens f)

/-- `PathUtils.get_date`: search the final name component for the date
pattern; raise `IdentityError` when it is absent. -/
def getDate (f : PyPath) : Except PyErr (List Char) :=
  match findWin 10 dateShape f.name with
  | none => .error .identityError
  | some s => .ok s

/-- `PathUtils.is_full_audio`. -/
def isFullAudio (f : PyPath) : Bool :=
  ((stemTokens f).any fun t => decide (t = "full".data)) &&
    decide (sufOf f.name = ".aac".data)

/-- `PathUtils.get_fileno_a`: searches `str(file)` — the full path string,
directories included — for `a\d{2}` and converts the last two characters of
the match; a failed search raises AttributeError through `.group()`. -/
def getFilenoA (f : PyPath) : Except PyErr Nat :=
  match findWin 3 aShape (strPath f) with
  | none => .error .attrError
  | some s => .ok (valD (lastN 2 s))

/-- `PathUtils.get_fileno_p`: as `get_fileno_a` with `p\d{3}`. -/
def getFilenoP (f : PyPath) : Except PyErr Nat :=
  match findWin 4 pShape (strPath f) with
  | none => .error .attrError
  | some s => .ok (valD (lastN 3 s))

/-- `PathUtils.is_trimmed`. -/
def isTrimmed (f : PyPath) : Bool :=
  (stemTokens f).any fun t => decide (t = "trimmed".data)

/-- `PathUtils.is_valid_flac`: the suffix test comes first, so the empty
last token raises only when the suffix is `.flac`. -/
def isValidFlac (f : PyPath) : Except PyErr Bool :=
  if sufOf f.name = ".flac".data then
    match lastTok f with
    | [] => .error .indexError
    | c :: _ => .ok (decide (c = 'a'))
  else .ok false

/-- `PathUtils.is_valid_midi`: same shape as `is_valid_flac`. -/
def isValidMidi (f : PyPath) : Except PyErr Bool :=
  if sufOf f.name = ".mid".data then
    match lastTok f with
    | [] => .error .indexError
    | c :: _ => .ok (decide (c = 'a'))
  else .ok false

/-- `PathUtils.is_full_video`. -/
def isFullVideo (f : PyPath) : Bool :=
  decide (lastTok f = "full".data) && decide (sufOf f.name = ".mp4".data)

/-- `PathUtils.get_type`: dispatch on the suffix, then evaluate that
extension's predicates in source order, first hit wins; `none` when nothing
matches. Exceptions raised by the predicates propagate. -/
def getType (f : PyPath) : Except PyErr (Option Filetype) :=
  if sufOf f.name = ".mid".data then
    match isValidMidi f with
    | .error e => .error e
    | .ok true => .ok (some .full_midi)
    | .ok false =>
      if isSplit f then .ok (some .split_midi) else .ok none
  else if sufOf f.name = ".flac".data then
    match isValidFlac f with
    | .error e => .error e
    | .ok true => .ok (some .full_flac)
    | .ok false =>
      if isSplit f then .ok (some .split_flac) else .ok none
  else if sufOf f.name = ".mp4".data then
    if isTrimmed f then .ok (some .trimmed_video)
    else if isFullVideo f then .ok (some .full_video)
    else
      match isValidVideo f with
      | .error e => .error e
      | .ok true => .ok (some .video)
      | .ok false =>
        if isSplit f then .ok (some .split_video) else .ok none
  else if sufOf f.name = ".aac".data then
    if isFullAudio f then .ok (some .full_audio)
    else
      match isValidAudio f with
      | .error e => .error e
      | .ok true => .ok (some .audio)
      | .ok false => .ok none
  else .ok none

/-- `PathUtils.get_split_no`: search the last stem token for `\d{1,2}` and
convert the match with `int()`. -/
def getSplitNo (f : PyPath) : Except PyErr Nat :=
  match searchD12 (lastTok f) with
  | none => .error .attrError
  | some ds => .ok (valD ds)

/-- A calendar date as year, month, day. -/
abbrev Date := Nat × Nat × Nat

/-- Length of a month, with leap-year February, as `datetime` computes. -/
def daysInMonth (y m : Nat) : Nat :=
  if m = 2 then
    if y % 4 = 0 && (!(y % 100 = 0) || y % 400 = 0) then 29 else 28
  else if m = 4 || m = 6 || m = 9 || m = 11 then 30 else 31

/-- `datetime.strptime(s, "%Y-%m-%d")` restricted to the ten-character
strings `get_date` produces: the three components must form a valid
Gregorian calendar date with year at least 1, else ValueError. -/
def parseDate (cs : List Char) : Option Date :=
  match cs with
  | [y1, y2, y3, y4, c1, m1, m2, c2, d1, d2] =>
    if decide (c1 = '-') && decide (c2 = '-') &&
        [y1, y2, y3, y4, m1, m2, d1, d2].all isDig then
      let y := valD [y1, y2, y3, y4]
      let m := valD [m1, m2]
      let d := valD [d1, d2]
      if 1 ≤ y ∧ (1 ≤ m ∧ m ≤ 12) ∧ 1 ≤ d ∧ d ≤ daysInMonth y m then
        some (y, m, d)
      else none
    else none
  | _ => none

/-- `PathUtils.get_split_num_id`. The parameter `mk` abstracts
`int(time.mktime(date.timetuple()))`, whose value depends on the local
timezone; the rest is the source's sequence: extract the date string, parse
it, extract the split number, reject 100 and above, combine. -/
def getSplitNumId (mk : Date → Int) (f : PyPath) : Except PyErr Int :=
  match getDate f with
  | .error e => .error e
  | .ok d =>
    match parseDate d with
    | none => .error .valueError
    | some D =>
      match getSplitNo f with
      | .error e => .error e
      | .ok n =>
        if 100 ≤ n then .error .precondViolation
        else .ok (mk D * 100 + (n : Int))

/-- Whether a result avoided the explicit split-number precondition
raise. -/
def notPrecond (r : Except PyErr Int) : Bool :=
  match r with
  | .error .precondViolation => false
  | _ => true

/-- Spec-wording reading of `^split\d{1,2}$` as a full-token match, without
Python's trailing-newline tolerance; kept to compare the spec's phrasing
with the source's semantics. -/
def splitTokExact (t : List Char) : Bool :=
  decide (t.take 5 = "split".data) && digits12 (t.drop 5)

/-- Spec-wording reading of `^(a|v)\d\d$` as a full-token match, without
Python's trailing-newline tolerance. -/
def sessionTokExact (t : List Char) : Bool :=
  match t with
  | [c, d1, d2] => (decide (c = 'a') || decide (c = 'v')) && isDig d1 && isDig d2
  | _ => false

/-- An injective date-to-integer map, used to instantiate the abstract
timezone-dependent epoch function on concrete examples. -/
def mkPair (D : Date) : Int := (Nat.pair (Nat.pair D.1 D.2.1) D.2.2 : Nat)

theorem mkPair_inj : Function.Injective mkPair := by
  rintro ⟨a, b, c⟩ ⟨x, y, z⟩ h
  simp only [mkPair, Nat.cast_inj, Nat.pair_eq_pair] at h
  obtain ⟨⟨rfl, rfl⟩, rfl⟩ := h
  rfl

theorem isDig_dval_le {c : Char} (h : isDig c = true) : dval c ≤ 9 := by
  simp only [isDig, Bool.and_eq_true, decide_eq_true_eq] at h
  simp only [dval]
  omega

theorem isDig_ne_newline {c : Char} (h : isDig c = true) : c ≠ '\n' := by
  rintro rfl
  simp [isDig] at h

theorem valD_pair {d1 d2 : Char} : valD [d1, d2] = 10 * dval d1 + dval d2 := by
  simp [valD, List.foldl]

theorem searchD12_le_99 : ∀ {cs ds : List Char}, searchD12 cs = some ds →
    valD ds ≤ 99
  | [], _, h => by simp [searchD12] at h
  | [c], ds, h => by
    rw [searchD12] at h
    split at h
    · next hdig =>
      simp only [Option.some.injEq] at h
      subst h
      have := isDig_dval_le hdig
      simp only [valD, List.foldl]
      omega
    · simp at h
  | c :: d :: rest, ds, h => by
    rw [searchD12] at h
    split at h
    · next hdig =>
      simp only [Option.some.injEq] at h
      subst h
      have h1 := isDig_dval_le hdig
      by_cases hd : isDig d = true
      · rw [if_pos hd]
        have h2 := isDig_dval_le hd
        rw [valD_pair]
        omega
      · rw [if_neg hd]
        simp only [valD, List.foldl]
        omega
    · exact searchD12_le_99 h

theorem searchD12_eq_none : ∀ {cs : List Char},
    (∀ c ∈ cs, isDig c = false) → searchD12 cs = none
  | [], _ => rfl
  | [c], h => by
    rw [searchD12, if_neg]
    simp [h c (List.mem_cons_self c [])]
  | c :: d :: rest, h => by
    rw [searchD12, if_neg]
    · exact searchD12_eq_none fun x hx => h x (List.mem_cons_of_mem c hx)
    · simp [h c (List.mem_cons_self c (d :: rest))]

theorem findWin_shape {k : Nat} {shp : List Char → Bool} :
    ∀ {cs s : List Char}, findWin k shp cs = some s →
      shp s = true ∧ ∃ pre post, cs = pre ++ s ++ post
  | [], s, h => by simp [findWin] at h
  | c :: rest, s, h => by
    rw [findWin] at h
    split at h
    · next hc =>
      cases h
      exact ⟨hc, [], (c :: rest).drop k, by simp⟩
    · obtain ⟨h1, pre, post, h2⟩ := findWin_shape h
      exact ⟨h1, c :: pre, post, by simp [h2]⟩

theorem findWin_of_decomp {k : Nat} {shp : List Char → Bool}
    (hk : ∀ l, shp l = true → l.length = k) (hpos : 0 < k) :
    ∀ (pre s post : List Char), shp s = true →
      ∃ r, findWin k shp (pre ++ s ++ post) = some r
  | [], s, post, hs => by
    have hlen := hk s hs
    cases s with
    | nil => simp only [List.length_nil] at hlen; omega
    | cons a s' =>
      refine ⟨a :: s', ?_⟩
      rw [List.nil_append, List.cons_append, findWin]
      have htake : ((a :: s') ++ post).take k = a :: s' := by
        rw [← hlen]
        exact List.take_left _ _
      rw [List.cons_append] at htake
      rw [htake, if_pos hs]
  | c :: pre, s, post, hs => by
    have hsplit : (c :: pre) ++ s ++ post = c :: (pre ++ s ++ post) := by simp
    rw [hsplit]
    by_cases hc : shp ((c :: (pre ++ s ++ post)).take k) = true
    · exact ⟨_, by rw [findWin, if_pos hc]⟩
    · obtain ⟨r, hr⟩ := findWin_of_decomp hk hpos pre s post hs
      exact ⟨r, by rw [findWin, if_neg hc, hr]⟩

theorem findWin_none {k : Nat} {shp : List Char → Bool}
    (hk : ∀ l, shp l = true → l.length = k) (hpos : 0 < k) {cs : List Char}
    (h : findWin k shp cs = none) :
    ∀ pre s post, cs = pre ++ s ++ post → shp s = false := by
  intro pre s post he
  cases hs : shp s with
  | false => rfl
  | true =>
    exfalso
    obtain ⟨r, hr⟩ := findWin_of_decomp hk hpos pre s post hs
    rw [← he, h] at hr
    cases hr

theorem findWin_leftmost {k : Nat} {shp : List Char → Bool}
    (hk : ∀ l, shp l = true → l.length = k) :
    ∀ {cs s : List Char}, findWin k shp cs = some s →
      ∃ pre post, cs = pre ++ s ++ post ∧
        ∀ pre' s' post', cs = pre' ++ s' ++ post' → shp s' = true →
          pre.length ≤ pre'.length
  | [], s, h => by simp [findWin] at h
  | c :: rest, s, h => by
    rw [findWin] at h
    split at h
    · next hc =>
      cases h
      exact ⟨[], (c :: rest).drop k, by simp,
        fun _ _ _ _ _ => Nat.zero_le _⟩
    · next hc =>
      obtain ⟨pre, post, h2, hmin⟩ := findWin_leftmost hk h
      refine ⟨c :: pre, post, by simp [h2], ?_⟩
      intro pre' s' post' he hs
      cases pre' with
      | nil =>
        exfalso
        apply hc
        rw [List.nil_append] at he
        have htake : (c :: rest).take k = s' := by
          rw [he, ← hk s' hs]
          exact List.take_left _ _
        rw [htake]
        exact hs
      | cons d pre'' =>
        rw [List.cons_append] at he
        have he' : rest = pre'' ++ s' ++ post' := by injection he
        simp only [List.length_cons]
        exact Nat.succ_le_succ (hmin pre'' s' post' he' hs)

theorem findWin_prefix_free {k : Nat} {shp : List Char → Bool}
    (hk : ∀ l, shp l = true → l.length = k)
    (hd : ∀ l, shp l = true → ∃ c l', l = c :: l' ∧ isDig c = true) :
    ∀ (pre s post : List Char), (∀ c ∈ pre, isDig c = false) → shp s = true →
      findWin k shp (pre ++ s ++ post) = some s
  | [], s, post, _, hs => by
    obtain ⟨a, s', rfl, _⟩ := hd s hs
    rw [List.nil_append, List.cons_append, findWin]
    have htake : ((a :: s') ++ post).take k = a :: s' := by
      rw [← hk _ hs]
      exact List.take_left _ _
    rw [List.cons_append] at htake
    rw [htake, if_pos hs]
  | c :: pre, s, post, hfree, hs => by
    have hsplit : (c :: pre) ++ s ++ post = c :: (pre ++ s ++ post) := by simp
    rw [hsplit, findWin]
    have hcfalse : isDig c = false := hfree c (List.mem_cons_self c pre)
    have hcond : shp ((c :: (pre ++ s ++ post)).take k) = false := by
      cases hcc : shp ((c :: (pre ++ s ++ post)).take k) with
      | false => rfl
      | true =>
        exfalso
        obtain ⟨a, l', heq, ha⟩ := hd _ hcc
        have hklen := hk s hs
        obtain ⟨b, s', rfl⟩ : ∃ b s', s = b :: s' := by
          obtain ⟨b, s', rfl, _⟩ := hd s hs
          exact ⟨b, s', rfl⟩
        have hkpos : 0 < k := by
          simp only [List.length_cons] at hklen
          omega
        obtain ⟨k', rfl⟩ : ∃ k', k = k' + 1 := ⟨k - 1, by omega⟩
        rw [List.take_succ_cons] at heq
        have : a = c := (List.cons.injEq _ _ _ _ ▸ heq).1.symm
        rw [this] at ha
        rw [hcfalse] at ha
        cases ha
    rw [hcond]
    simp only [Bool.false_eq_true, if_false]
    exact findWin_prefix_free hk hd pre s post
      (fun x hx => hfree x (List.mem_cons_of_mem c hx)) hs

theorem dateShape_length {l : List Char} (h : dateShape l = true) :
    l.length = 10 := by
  unfold dateShape at h
  split at h
  · rfl
  · cases h

theorem dateShape_head {l : List Char} (h : dateShape l = true) :
    ∃ c l', l = c :: l' ∧ isDig c = true := by
  unfold dateShape at h
  split at h
  · next y1 y2 y3 y4 c1 m1 m2 c2 d1 d2 =>
    simp only [Bool.and_eq_true] at h
    exact ⟨y1, _, rfl, h.1.1.1.1.1.1.1.1.1⟩
  · cases h

theorem aShape_elim {l : List Char} (h : aShape l = true) :
    ∃ d1 d2, l = ['a', d1, d2] ∧ isDig d1 = true ∧ isDig d2 = true := by
  unfold aShape at h
  split at h
  · next c d1 d2 =>
    simp only [Bool.and_eq_true, decide_eq_true_eq] at h
    obtain ⟨⟨rfl, h1⟩, h2⟩ := h
    exact ⟨d1, d2, rfl, h1, h2⟩
  · cases h

theorem aShape_length {l : List Char} (h : aShape l = true) : l.length = 3 := by
  obtain ⟨d1, d2, rfl, _, _⟩ := aShape_elim h
  rfl

theorem aShape_intro {d1 d2 : Char} (h1 : isDig d1 = true)
    (h2 : isDig d2 = true) : aShape ['a', d1, d2] = true := by
  unfold aShape
  simp [h1, h2]

theorem pShape_elim {l : List Char} (h : pShape l = true) :
    ∃ d1 d2 d3, l = ['p', d1, d2, d3] ∧ isDig d1 = true ∧ isDig d2 = true ∧
      isDig d3 = true := by
  unfold pShape at h
  split at h
  · next c d1 d2 d3 =>
    simp only [Bool.and_eq_true, decide_eq_true_eq] at h
    obtain ⟨⟨⟨rfl, h1⟩, h2⟩, h3⟩ := h
    exact ⟨d1, d2, d3, rfl, h1, h2, h3⟩
  · cases h

theorem pShape_length {l : List Char} (h : pShape l = true) : l.length = 4 := by
  obtain ⟨d1, d2, d3, rfl, _⟩ := pShape_elim h
  rfl

theorem pShape_intro {d1 d2 d3 : Char} (h1 : isDig d1 = true)
    (h2 : isDig d2 = true) (h3 : isDig d3 = true) :
    pShape ['p', d1, d2, d3] = true := by
  unfold pShape
  simp [h1, h2, h3]

theorem getDate_error {f : PyPath} {e : PyErr} (h : getDate f = .error e) :
    e = .identityError := by
  unfold getDate at h
  split at h
  · cases h; rfl
  · cases h

theorem getSplitNo_error {f : PyPath} {e : PyErr} (h : getSplitNo f = .error e) :
    e = .attrError := by
  unfold getSplitNo at h
  split at h
  · cases h; rfl
  · cases h

theorem digits12_iff {ds : List Char} :
    digits12 ds = true ↔ ds ≠ [] ∧ ds.length ≤ 2 ∧ ∀ c ∈ ds, isDig c = true := by
  simp [digits12, List.all_eq_true, List.isEmpty_iff, and_assoc]

theorem stripNL_digits {ds : List Char} (hne : ds ≠ [])
    (hdig : ∀ c ∈ ds, isDig c = true) : stripNL ds = ds := by
  unfold stripNL
  split
  · next heq =>
    exfalso
    have hgl := List.getLast?_eq_getLast ds hne
    rw [heq] at hgl
    have he : ds.getLast hne = '\n' := (Option.some.injEq _ _).mp hgl.symm
    have hmem : '\n' ∈ ds := he ▸ List.getLast_mem hne
    have := hdig '\n' hmem
    simp [isDig] at this
  · rfl

theorem stripNL_concat_newline {ds : List Char} :
    stripNL (ds ++ ['\n']) = ds := by
  unfold stripNL
  rw [List.getLast?_concat]
  exact List.dropLast_concat

theorem take5_split (l : List Char) : ("split".data ++ l).take 5 = "split".data := by
  have h : ("split".data).length = 5 := rfl
  rw [← h]
  exact List.take_left _ _

theorem drop5_split (l : List Char) : ("split".data ++ l).drop 5 = l := by
  have h : ("split".data).length = 5 := rfl
  rw [← h]
  exact List.drop_left _ _

theorem splitTokMatch_iff {t : List Char} :
    splitTokMatch t = true ↔ ∃ ds : List Char,
      (t = "split".data ++ ds ∨ t = "split".data ++ ds ++ ['\n']) ∧
        ds ≠ [] ∧ ds.length ≤ 2 ∧ ∀ c ∈ ds, isDig c = true := by
  constructor
  · intro h
    simp only [splitTokMatch, Bool.and_eq_true, decide_eq_true_eq] at h
    obtain ⟨h5, hd⟩ := h
    have ht : t = "split".data ++ t.drop 5 := by
      conv_lhs => rw [← List.take_append_drop 5 t]
      rw [h5]
    rcases hlast : (t.drop 5).getLast? with _ | c
    · exfalso
      have hnil : t.drop 5 = [] := List.getLast?_eq_none_iff.mp hlast
      rw [hnil] at hd
      simp [stripNL, digits12] at hd
    · by_cases hc : c = '\n'
      · subst hc
        have hne : t.drop 5 ≠ [] := by
          intro h0
          rw [h0] at hlast
          cases hlast
        have hgl := List.getLast?_eq_getLast (t.drop 5) hne
        rw [hlast] at hgl
        have hlify : (t.drop 5).getLast hne = '\n' :=
          (Option.some.injEq _ _).mp hgl.symm
        have hsplit : t.drop 5 = (t.drop 5).dropLast ++ ['\n'] := by
          conv_lhs => rw [← List.dropLast_append_getLast hne]
          rw [hlify]
        have hstrip : stripNL (t.drop 5) = (t.drop 5).dropLast := by
          unfold stripNL
          rw [hlast]
          rfl

        rw [hstrip] at hd
        obtain ⟨hne2, hlen2, hdig2⟩ := digits12_iff.mp hd
        refine ⟨(t.drop 5).dropLast, Or.inr ?_, hne2, hlen2, hdig2⟩
        rw [List.append_assoc, ← hsplit]
        exact ht
      · have hstrip : stripNL (t.drop 5) = t.drop 5 := by
          unfold stripNL
          split
          · next heq =>
            rw [hlast] at heq
            exact absurd ((Option.some.injEq _ _).mp heq) hc
          · rfl
        rw [hstrip] at hd
        obtain ⟨hne2, hlen2, hdig2⟩ := digits12_iff.mp hd
        exact ⟨t.drop 5, Or.inl ht, hne2, hlen2, hdig2⟩
  · rintro ⟨ds, hcase, hne, hlen, hdig⟩
    have h12 : digits12 ds = true := digits12_iff.mpr ⟨hne, hlen, hdig⟩
    rcases hcase with rfl | rfl
    · have hstrip : stripNL ds = ds := stripNL_digits hne hdig
      simp [splitTokMatch, take5_split, drop5_split, hstrip, h12]
    · rw [List.append_assoc]
      simp [splitTokMatch, take5_split, drop5_split, stripNL_concat_newline, h12]

theorem sessionTokMatch_exact {x d1 d2 : Char} (hx : x = 'a' ∨ x = 'v')
    (h1 : isDig d1 = true) (h2 : isDig d2 = true) :
    sessionTokMatch [x, d1, d2] = true := by
  have hpair : ∀ c ∈ [d1, d2], isDig c = true := by
    intro c hc
    have : c = d1 ∨ c = d2 := by simpa using hc
    rcases this with rfl | rfl
    · exact h1
    · exact h2
  have hstrip : stripNL [d1, d2] = [d1, d2] := stripNL_digits (by simp) hpair
  simp only [sessionTokMatch, hstrip, Bool.and_eq_true, Bool.or_eq_true,
    decide_eq_true_eq, List.all_eq_true]
  exact ⟨⟨hx, rfl⟩, hpair⟩

theorem sessionScan_append {pre rest : List (List Char)}
    (h : ∀ u ∈ pre, sessionTokMatch u = false) :
    sessionScan (pre ++ rest) = sessionScan rest := by
  induction pre with
  | nil => rfl
  | cons t ts ih =>
    rw [List.cons_append, sessionScan, if_neg]
    · exact ih fun u hu => h u (List.mem_cons_of_mem t hu)
    · simp [h t (List.mem_cons_self t ts)]

theorem sessionScan_none {l : List (List Char)}
    (h : ∀ u ∈ l, sessionTokMatch u = false) : sessionScan l = none := by
  induction l with
  | nil => rfl
  | cons t ts ih =>
    rw [sessionScan, if_neg]
    · exact ih fun u hu => h u (List.mem_cons_of_mem t hu)
    · simp [h t (List.mem_cons_self t ts)]

theorem isValidMidi_ok {f : PyPath} (h : lastTok f ≠ []) :
    ∃ b, isValidMidi f = .ok b := by
  unfold isValidMidi
  split_ifs
  · cases hl : lastTok f with
    | nil => exact absurd hl h
    | cons c cs => exact ⟨_, rfl⟩
  · exact ⟨false, rfl⟩

theorem isValidFlac_ok {f : PyPath} (h : lastTok f ≠ []) :
    ∃ b, isValidFlac f = .ok b := by
  unfold isValidFlac
  split_ifs
  · cases hl : lastTok f with
    | nil => exact absurd hl h
    | cons c cs => exact ⟨_, rfl⟩
  · exact ⟨false, rfl⟩

theorem isValidVideo_ok {f : PyPath} (h : lastTok f ≠ []) :
    ∃ b, isValidVideo f = .ok b := by
  unfold isValidVideo
  cases hl : lastTok f with
  | nil => exact absurd hl h
  | cons c cs => exact ⟨_, rfl⟩

theorem isValidAudio_ok {f : PyPath} (h : lastTok f ≠ []) :
    ∃ b, isValidAudio f = .ok b := by
  unfold isValidAudio
  cases hl : lastTok f with
  | nil => exact absurd hl h
  | cons c cs => exact ⟨_, rfl⟩

theorem getSplitNo_le {f : PyPath} {n : Nat} (h : getSplitNo f = .ok n) :
    n ≤ 99 := by
  unfold getSplitNo at h
  cases hs : searchD12 (lastTok f) with
  | none => rw [hs] at h; cases h
  | some ds =>
    rw [hs] at h
    have hb := searchD12_le_99 hs
    cases h
    exact hb

/-- Claim C1, evaluation at the failing input: for the file
`2023-05-01_split100.mp4`, whose last stem token carries the split number
100, `get_split_no` extracts 10 (the first two digits) and
`get_split_num_id` returns a successful id instead of raising the error its
own docstring promises for splits larger than 99. -/
theorem getSplitNumId_split100_no_raise :
    getSplitNo ⟨[], "2023-05-01_split100.mp4".data⟩ = .ok 10
    ∧ getSplitNumId (fun _ => 0) ⟨[], "2023-05-01_split100.mp4".data⟩ = .ok 10 :=
  ⟨rfl, rfl⟩

/-- Claim C9: whenever `get_split_no` returns a value it lies in 0–99,
because its pattern matches at most two digits; consequently the
`split_no >= 100` branch of `get_split_num_id` is unreachable and no input
produces its precondition error, whatever the epoch function is. -/
theorem getSplitNo_bounded :
    (∀ (f : PyPath) (n : Nat), getSplitNo f = .ok n → n ≤ 99)
    ∧ ∀ (mk : Date → Int) (f : PyPath), notPrecond (getSplitNumId mk f) = true := by
  constructor
  · intro f n h
    exact getSplitNo_le h
  · intro mk f
    cases hd : getDate f with
    | error e =>
      have he := getDate_error hd
      subst he
      simp [getSplitNumId, hd, notPrecond]
    | ok d =>
      cases hp : parseDate d with
      | none => simp [getSplitNumId, hd, hp, notPrecond]
      | some D =>
        cases hn : getSplitNo f with
        | error e =>
          have he := getSplitNo_error hn
          subst he
          simp [getSplitNumId, hd, hp, hn, notPrecond]
        | ok n =>
          have h99 := getSplitNo_le hn
          have hlt : ¬ 100 ≤ n := by omega
          simp [getSplitNumId, hd, hp, hn, hlt, notPrecond]

theorem getSplitNo_bounded_witness :
    getSplitNo ⟨[], "a_split10.mp4".data⟩ = .ok 10 ∧ (10 : Nat) ≤ 99 :=
  ⟨rfl, getSplitNo_bounded.1 ⟨[], "a_split10.mp4".data⟩ 10 rfl⟩

/-- Claim C10: `is_split` scans every stem token while `get_split_no` reads
digits only from the last one, so a file with a split token before a
digit-free last token satisfies `is_split` yet makes `get_split_no` raise
AttributeError on the failed search. -/
theorem isSplit_without_splitNo (f : PyPath)
    (hs : ∃ t, t ∈ stemTokens f ∧ splitTokMatch t = true)
    (hl : ∀ c ∈ lastTok f, isDig c = false) :
    isSplit f = true ∧ getSplitNo f = .error .attrError := by
  refine ⟨?_, ?_⟩
  · unfold isSplit
    rw [List.any_eq_true]
    obtain ⟨t, ht, hm⟩ := hs
    exact ⟨t, ht, hm⟩
  · unfold getSplitNo
    rw [searchD12_eq_none hl]

theorem isSplit_without_splitNo_witness :
    isSplit ⟨[], "a_split3_full.mp4".data⟩ = true
    ∧ getSplitNo ⟨[], "a_split3_full.mp4".data⟩ = .error .attrError :=
  isSplit_without_splitNo _ ⟨"split3".data, by decide, by decide⟩ (by decide)

theorem getSplitNumId_ok_eq {mk : Date → Int} {f : PyPath} {d : List Char}
    {D : Date} {n : Nat} (hd : getDate f = .ok d) (hp : parseDate d = some D)
    (hn : getSplitNo f = .ok n) :
    getSplitNumId mk f = .ok (mk D * 100 + (n : Int)) := by
  have h99 := getSplitNo_le hn
  have hlt : ¬ 100 ≤ n := by omega
  simp [getSplitNumId, hd, hp, hn, hlt]

/-- Claim C6 (amended): when the date string extracted by `get_date` parses
as a valid calendar date and `get_split_no` succeeds with a split number in
0–99, `get_split_num_id` returns `epoch_seconds * 100 + split_no`; the
split number is recoverable as the id modulo 100, and under an injective
date-to-epoch map two such files get equal ids exactly when their
(date, split number) pairs coincide. -/
theorem getSplitNumId_formula (mk : Date → Int) (hinj : Function.Injective mk)
    (f f' : PyPath) (d d' : List Char) (D D' : Date) (n n' : Nat)
    (hd : getDate f = .ok d) (hp : parseDate d = some D)
    (hn : getSplitNo f = .ok n) (h99 : n ≤ 99)
    (hd' : getDate f' = .ok d') (hp' : parseDate d' = some D')
    (hn' : getSplitNo f' = .ok n') (h99' : n' ≤ 99) :
    getSplitNumId mk f = .ok (mk D * 100 + (n : Int))
    ∧ (mk D * 100 + (n : Int)) % 100 = (n : Int)
    ∧ (getSplitNumId mk f = getSplitNumId mk f' ↔ D = D' ∧ n = n') := by
  have e1 : getSplitNumId mk f = .ok (mk D * 100 + (n : Int)) :=
    getSplitNumId_ok_eq hd hp hn
  have e2 : getSplitNumId mk f' = .ok (mk D' * 100 + (n' : Int)) :=
    getSplitNumId_ok_eq hd' hp' hn'
  refine ⟨e1, by omega, ?_⟩
  rw [e1, e2]
  constructor
  · intro h
    simp only [Except.ok.injEq] at h
    have hmk : mk D = mk D' := by omega
    have hnn : (n : Int) = (n' : Int) := by omega
    exact ⟨hinj hmk, by exact_mod_cast hnn⟩
  · rintro ⟨rfl, rfl⟩
    rfl

theorem getSplitNumId_formula_witness :
    getSplitNumId mkPair ⟨[], "2023-05-01_split3.mp4".data⟩
        = .ok (mkPair (2023, 5, 1) * 100 + (3 : Int))
    ∧ (mkPair (2023, 5, 1) * 100 + (3 : Int)) % 100 = (3 : Int)
    ∧ (getSplitNumId mkPair ⟨[], "2023-05-01_split3.mp4".data⟩
        = getSplitNumId mkPair ⟨[], "2023-05-02_split4.mp4".data⟩
        ↔ ((2023, 5, 1) : Date) = (2023, 5, 2) ∧ (3 : Nat) = 4) :=
  getSplitNumId_formula mkPair mkPair_inj
    ⟨[], "2023-05-01_split3.mp4".data⟩ ⟨[], "2023-05-02_split4.mp4".data⟩
    "2023-05-01".data "2023-05-02".data (2023, 5, 1) (2023, 5, 2) 3 4
    rfl rfl rfl (by omega) rfl rfl rfl (by omega)

/-- Claim C6, counterexample: on `2023-99-99_split5.mp4` both `get_date`
and `get_split_no` succeed with a split number in 0–99, yet
`get_split_num_id` raises ValueError from `strptime` instead of returning
a composite id, because `99-99` is not a valid calendar date. -/
theorem getSplitNumId_invalid_date :
    getDate ⟨[], "2023-99-99_split5.mp4".data⟩ = .ok "2023-99-99".data
    ∧ getSplitNo ⟨[], "2023-99-99_split5.mp4".data⟩ = .ok 5
    ∧ getSplitNumId (fun _ => 0) ⟨[], "2023-99-99_split5.mp4".data⟩
        = .error .valueError :=
  ⟨rfl, rfl, rfl⟩

/-- Claim C5: when the final name component contains a substring matching
the date pattern, `get_date` succeeds and returns exactly the matched
substring — a date-shaped infix at the leftmost matching position, which is
the embedded date itself whenever the characters before it contain no
digit; when no such substring exists it raises IdentityError. -/
theorem getDate_characterization :
    (∀ (f : PyPath) (s : List Char), getDate f = .ok s →
        dateShape s = true ∧ ∃ pre post, f.name = pre ++ s ++ post ∧
          ∀ pre' s' post', f.name = pre' ++ s' ++ post' → dateShape s' = true →
            pre.length ≤ pre'.length)
    ∧ (∀ f : PyPath,
        (∃ s pre post, f.name = pre ++ s ++ post ∧ dateShape s = true) →
        ∃ r, getDate f = .ok r)
    ∧ (∀ f : PyPath, getDate f = .error .identityError ↔
        ∀ s pre post, f.name = pre ++ s ++ post → dateShape s = false)
    ∧ (∀ (f : PyPath) (pre s post : List Char), f.name = pre ++ s ++ post →
        (∀ c ∈ pre, isDig c = false) → dateShape s = true →
        getDate f = .ok s) := by
  have hk : ∀ l : List Char, dateShape l = true → l.length = 10 :=
    fun _ h => dateShape_length h
  have hd : ∀ l : List Char, dateShape l = true →
      ∃ c l', l = c :: l' ∧ isDig c = true :=
    fun _ h => dateShape_head h
  refine ⟨?_, ?_, ?_, ?_⟩
  · intro f s h
    unfold getDate at h
    cases hw : findWin 10 dateShape f.name with
    | none => rw [hw] at h; cases h
    | some r =>
      rw [hw] at h
      cases h
      exact ⟨(findWin_shape hw).1, findWin_leftmost hk hw⟩
  · rintro f ⟨s, pre, post, he, hs⟩
    obtain ⟨r, hr⟩ := findWin_of_decomp hk (by omega) pre s post hs
    refine ⟨r, ?_⟩
    unfold getDate
    rw [he, hr]
  · intro f
    constructor
    · intro h s pre post he
      unfold getDate at h
      cases hw : findWin 10 dateShape f.name with
      | none => exact findWin_none hk (by omega) hw pre s post he
      | some r => rw [hw] at h; cases h
    · intro hall
      unfold getDate
      cases hw : findWin 10 dateShape f.name with
      | none => rfl
      | some r =>
        exfalso
        obtain ⟨hshape, pre, post, he⟩ := findWin_shape hw
        rw [hall r pre post he] at hshape
        cases hshape
  · intro f pre s post he hfree hs
    unfold getDate
    rw [he, findWin_prefix_free hk hd pre s post hfree hs]

theorem getDate_characterization_witness :
    getDate ⟨[], "warmup_2023-05-01_full.mp4".data⟩ = .ok "2023-05-01".data :=
  getDate_characterization.2.2.2 ⟨[], "warmup_2023-05-01_full.mp4".data⟩
    "warmup_".data "2023-05-01".data "_full.mp4".data rfl (by decide) rfl

theorem valD_triple {d1 d2 d3 : Char} :
    valD [d1, d2, d3] = 100 * dval d1 + 10 * dval d2 + dval d3 := by
  simp [valD, List.foldl]
  ring

/-- Claim C8 (amended): `get_fileno_a` and `get_fileno_p` search the full
path string `str(file)` — directories included, not only the final name
component — for the leftmost occurrence of `a\d{2}` respectively `p\d{3}`,
return the digits of that occurrence as an integer, and raise exactly when
the pattern occurs nowhere in the path string. -/
theorem getFileno_characterization :
    (∀ f : PyPath,
        (∃ pre d1 d2 post, strPath f = pre ++ ['a', d1, d2] ++ post ∧
          isDig d1 = true ∧ isDig d2 = true) ↔ ∃ n, getFilenoA f = .ok n)
    ∧ (∀ (f : PyPath) (n : Nat), getFilenoA f = .ok n →
        ∃ pre d1 d2 post, strPath f = pre ++ ['a', d1, d2] ++ post ∧
          isDig d1 = true ∧ isDig d2 = true ∧ n = 10 * dval d1 + dval d2 ∧
          ∀ pre' e1 e2 post', strPath f = pre' ++ ['a', e1, e2] ++ post' →
            isDig e1 = true → isDig e2 = true → pre.length ≤ pre'.length)
    ∧ (∀ f : PyPath, (∃ n, getFilenoA f = .ok n) ∨ getFilenoA f = .error .attrError)
    ∧ (∀ f : PyPath,
        (∃ pre d1 d2 d3 post, strPath f = pre ++ ['p', d1, d2, d3] ++ post ∧
          isDig d1 = true ∧ isDig d2 = true ∧ isDig d3 = true) ↔
        ∃ n, getFilenoP f = .ok n)
    ∧ (∀ (f : PyPath) (n : Nat), getFilenoP f = .ok n →
        ∃ pre d1 d2 d3 post, strPath f = pre ++ ['p', d1, d2, d3] ++ post ∧
          isDig d1 = true ∧ isDig d2 = true ∧ isDig d3 = true ∧
          n = 100 * dval d1 + 10 * dval d2 + dval d3 ∧
          ∀ pre' e1 e2 e3 post', strPath f = pre' ++ ['p', e1, e2, e3] ++ post' →
            isDig e1 = true → isDig e2 = true → isDig e3 = true →
            pre.length ≤ pre'.length)
    ∧ (∀ f : PyPath, (∃ n, getFilenoP f = .ok n) ∨ getFilenoP f = .error .attrError) := by
  have hkA : ∀ l : List Char, aShape l = true → l.length = 3 :=
    fun _ h => aShape_length h
  have hkP : ∀ l : List Char, pShape l = true → l.length = 4 :=
    fun _ h => pShape_length h
  refine ⟨?_, ?_, ?_, ?_, ?_, ?_⟩
  · intro f
    constructor
    · rintro ⟨pre, d1, d2, post, he, h1, h2⟩
      obtain ⟨r, hr⟩ :=
        findWin_of_decomp hkA (by omega) pre ['a', d1, d2] post (aShape_intro h1 h2)
      exact ⟨_, by unfold getFilenoA; rw [he, hr]⟩
    · rintro ⟨n, hn⟩
      unfold getFilenoA at hn
      cases hw : findWin 3 aShape (strPath f) with
      | none => rw [hw] at hn; cases hn
      | some r =>
        obtain ⟨hshape, pre, post, he⟩ := findWin_shape hw
        obtain ⟨d1, d2, rfl, h1, h2⟩ := aShape_elim hshape
        exact ⟨pre, d1, d2, post, he, h1, h2⟩
  · intro f n hn
    unfold getFilenoA at hn
    cases hw : findWin 3 aShape (strPath f) with
    | none => rw [hw] at hn; cases hn
    | some r =>
      rw [hw] at hn
      cases hn
      obtain ⟨pre, post, he, hmin⟩ := findWin_leftmost hkA hw
      obtain ⟨d1, d2, rfl, h1, h2⟩ := aShape_elim (findWin_shape hw).1
      refine ⟨pre, d1, d2, post, he, h1, h2, ?_, ?_⟩
      · show valD (lastN 2 ['a', d1, d2]) = 10 * dval d1 + dval d2
        exact valD_pair
      · intro pre' e1 e2 post' he' h1' h2'
        exact hmin pre' ['a', e1, e2] post' he' (aShape_intro h1' h2')
  · intro f
    cases hw : findWin 3 aShape (strPath f) with
    | none => exact Or.inr (by unfold getFilenoA; rw [hw])
    | some r => exact Or.inl ⟨_, by unfold getFilenoA; rw [hw]⟩
  · intro f
    constructor
    · rintro ⟨pre, d1, d2, d3, post, he, h1, h2, h3⟩
      obtain ⟨r, hr⟩ := findWin_of_decomp hkP (by omega) pre ['p', d1, d2, d3]
        post (pShape_intro h1 h2 h3)
      exact ⟨_, by unfold getFilenoP; rw [he, hr]⟩
    · rintro ⟨n, hn⟩
      unfold getFilenoP at hn
      cases hw : findWin 4 pShape (strPath f) with
      | none => rw [hw] at hn; cases hn
      | some r =>
        obtain ⟨hshape, pre, post, he⟩ := findWin_shape hw
        obtain ⟨d1, d2, d3, rfl, h1, h2, h3⟩ := pShape_elim hshape
        exact ⟨pre, d1, d2, d3, post, he, h1, h2, h3⟩
  · intro f n hn
    unfold getFilenoP at hn
    cases hw : findWin 4 pShape (strPath f) with
    | none => rw [hw] at hn; cases hn
    | some r =>
      rw [hw] at hn
      cases hn
      obtain ⟨pre, post, he, hmin⟩ := findWin_leftmost hkP hw
      obtain ⟨d1, d2, d3, rfl, h1, h2, h3⟩ := pShape_elim (findWin_shape hw).1
      refine ⟨pre, d1, d2, d3, post, he, h1, h2, h3, ?_, ?_⟩
      · show valD (lastN 3 ['p', d1, d2, d3]) = 100 * dval d1 + 10 * dval d2 + dval d3
        exact valD_triple
      · intro pre' e1 e2 e3 post' he' h1' h2' h3'
        exact hmin pre' ['p', e1, e2, e3] post' he' (pShape_intro h1' h2' h3')
  · intro f
    cases hw : findWin 4 pShape (strPath f) with
    | none => exact Or.inr (by unfold getFilenoP; rw [hw])
    | some r => exact Or.inl ⟨_, by unfold getFilenoP; rw [hw]⟩

theorem getFileno_characterization_witness :
    ∃ pre d1 d2 post,
      strPath ⟨[], "x_a07.mp4".data⟩ = pre ++ ['a', d1, d2] ++ post ∧
      isDig d1 = true ∧ isDig d2 = true ∧ 7 = 10 * dval d1 + dval d2 ∧
      ∀ pre' e1 e2 post',
        strPath ⟨[], "x_a07.mp4".data⟩ = pre' ++ ['a', e1, e2] ++ post' →
        isDig e1 = true → isDig e2 = true → pre.length ≤ pre'.length :=
  getFileno_characterization.2.1 ⟨[], "x_a07.mp4".data⟩ 7 rfl

/-- Claim C8, counterexample: with the same final name component
`file.mp4`, `get_fileno_a` succeeds when a directory component contains
`a12` and raises when there is no directory — so success is not determined
by the filename, and the pattern can be absent from the filename while the
call succeeds. -/
theorem getFilenoA_uses_directories :
    getFilenoA ⟨["a12".data], "file.mp4".data⟩ = .ok 12
    ∧ getFilenoA ⟨[], "file.mp4".data⟩ = .error .attrError :=
  ⟨rfl, rfl⟩

/-- Claim C7 (amended): `is_split` is true exactly when some stem token is
`split` followed by one or two digits, optionally followed by one trailing
newline (Python's `$` semantics); in particular it holds for tokens
`split7` and `split23` and fails for `split100` and for stems with no such
token. -/
theorem isSplit_characterization :
    (∀ f : PyPath, isSplit f = true ↔ ∃ t ∈ stemTokens f, ∃ ds : List Char,
        (t = "split".data ++ ds ∨ t = "split".data ++ ds ++ ['\n']) ∧
          ds ≠ [] ∧ ds.length ≤ 2 ∧ ∀ c ∈ ds, isDig c = true)
    ∧ isSplit ⟨[], "a_split7.mp4".data⟩ = true
    ∧ isSplit ⟨[], "b_split23.mp4".data⟩ = true
    ∧ isSplit ⟨[], "c_split100.mp4".data⟩ = false
    ∧ isSplit ⟨[], "c_full.mp4".data⟩ = false := by
  refine ⟨?_, rfl, rfl, rfl, rfl⟩
  intro f
  unfold isSplit
  rw [List.any_eq_true]
  constructor
  · rintro ⟨t, ht, hm⟩
    exact ⟨t, ht, splitTokMatch_iff.mp hm⟩
  · rintro ⟨t, ht, hds⟩
    exact ⟨t, ht, splitTokMatch_iff.mpr hds⟩

/-- Claim C7, counterexample: the stem token `split5` followed by a
newline character satisfies the Python search for `^split\d{1,2}$`, so
`is_split` is true on `split5\n.mp4` although no stem token matches the
pattern in full. -/
theorem isSplit_trailing_newline :
    isSplit ⟨[], "split5\n.mp4".data⟩ = true
    ∧ (stemTokens ⟨[], "split5\n.mp4".data⟩).any splitTokExact = false :=
  ⟨rfl, rfl⟩

/-- Claim C4 (amended): `get_session_no` returns, for the first stem token
matched by the session pattern (a or v, two digits, and possibly one
trailing newline under Python's `$`), the string `a` followed by the
token's last two characters; those are the token's two digits whenever
the token is exactly `(a|v)dd`, and the result is the None sentinel when no
token matches. -/
theorem getSessionNo_characterization :
    (∀ (f : PyPath) (pre post : List (List Char)) (t : List Char),
        stemTokens f = pre ++ t :: post →
        (∀ u ∈ pre, sessionTokMatch u = false) →
        sessionTokMatch t = true →
        getSessionNo f = some ('a' :: lastN 2 t))
    ∧ (∀ f : PyPath, (∀ u ∈ stemTokens f, sessionTokMatch u = false) →
        getSessionNo f = none)
    ∧ (∀ (f : PyPath) (pre post : List (List Char)) (x d1 d2 : Char),
        stemTokens f = pre ++ [x, d1, d2] :: post →
        (∀ u ∈ pre, sessionTokMatch u = false) →
        (x = 'a' ∨ x = 'v') → isDig d1 = true → isDig d2 = true →
        getSessionNo f = some ['a', d1, d2]) := by
  have key : ∀ (f : PyPath) (pre post : List (List Char)) (t : List Char),
      stemTokens f = pre ++ t :: post →
      (∀ u ∈ pre, sessionTokMatch u = false) → sessionTokMatch t = true →
      getSessionNo f = some ('a' :: lastN 2 t) := by
    intro f pre post t he hpre hm
    unfold getSessionNo
    rw [he, sessionScan_append hpre, sessionScan, if_pos hm]
  refine ⟨key, ?_, ?_⟩
  · intro f hall
    unfold getSessionNo
    exact sessionScan_none hall
  · intro f pre post x d1 d2 he hpre hx h1 h2
    have hm := sessionTokMatch_exact hx h1 h2
    rw [key f pre post [x, d1, d2] he hpre hm]
    rfl

theorem getSessionNo_characterization_witness :
    getSessionNo ⟨[], "rach3_v07.mp4".data⟩ = some "a07".data :=
  getSessionNo_characterization.2.2 ⟨[], "rach3_v07.mp4".data⟩ ["rach3".data]
    [] 'v' '0' '7' rfl (by decide) (Or.inr rfl) rfl rfl

/-- Claim C4, counterexample: on `a12\n.mp4` the stem token is `a12`
followed by a newline, which the session pattern matches under Python's
`$`; the result is `a` plus the last two characters `2` and the newline —
not `a` plus the last two digits, and not the None sentinel although no
token is exactly `(a|v)dd`. -/
theorem getSessionNo_trailing_newline :
    getSessionNo ⟨[], "a12\n.mp4".data⟩ = some ('a' :: '2' :: '\n' :: [])
    ∧ (stemTokens ⟨[], "a12\n.mp4".data⟩).any sessionTokExact = false :=
  ⟨rfl, rfl⟩

/-- Claim C2 (amended): `get_type` returns `none` for every path whose
extension is outside the declared set, whatever the stem looks like; for a
path with a declared extension it returns a tag or `none` without raising
provided the last stem token is nonempty — with an empty last token it can
raise IndexError instead (see the counterexample). -/
theorem getType_total_characterization :
    (∀ f : PyPath, sufOf f.name ≠ ".mid".data → sufOf f.name ≠ ".flac".data →
        sufOf f.name ≠ ".mp4".data → sufOf f.name ≠ ".aac".data →
        getType f = .ok none)
    ∧ (∀ f : PyPath, lastTok f ≠ [] → ∃ r, getType f = .ok r) := by
  constructor
  · intro f h1 h2 h3 h4
    unfold getType
    rw [if_neg h1, if_neg h2, if_neg h3, if_neg h4]
  · intro f h
    by_cases h1 : sufOf f.name = ".mid".data
    · obtain ⟨b, hb⟩ := isValidMidi_ok h
      cases b with
      | true =>
        exact ⟨some .full_midi, by unfold getType; rw [if_pos h1, hb]⟩
      | false =>
        by_cases hs : isSplit f = true
        · exact ⟨some .split_midi,
            by unfold getType; rw [if_pos h1, hb]; simp [hs]⟩
        · exact ⟨none, by unfold getType; rw [if_pos h1, hb]; simp [hs]⟩
    · by_cases h2 : sufOf f.name = ".flac".data
      · obtain ⟨b, hb⟩ := isValidFlac_ok h
        cases b with
        | true =>
          exact ⟨some .full_flac,
            by unfold getType; rw [if_neg h1, if_pos h2, hb]⟩
        | false =>
          by_cases hs : isSplit f = true
          · exact ⟨some .split_flac,
              by unfold getType; rw [if_neg h1, if_pos h2, hb]; simp [hs]⟩
          · exact ⟨none,
              by unfold getType; rw [if_neg h1, if_pos h2, hb]; simp [hs]⟩
      · by_cases h3 : sufOf f.name = ".mp4".data
        · by_cases ht : isTrimmed f = true
          · exact ⟨some .trimmed_video,
              by unfold getType
                 rw [if_neg h1, if_neg h2, if_pos h3, if_pos ht]⟩
          · by_cases hfv : isFullVideo f = true
            · exact ⟨some .full_video,
                by unfold getType
                   rw [if_neg h1, if_neg h2, if_pos h3,
                     if_neg (by simp [ht]), if_pos hfv]⟩
            · obtain ⟨b, hb⟩ := isValidVideo_ok h
              cases b with
              | true =>
                exact ⟨some .video,
                  by unfold getType
                     rw [if_neg h1, if_neg h2, if_pos h3,
                       if_neg (by simp [ht]), if_neg (by simp [hfv]), hb]⟩
              | false =>
                by_cases hs : isSplit f = true
                · exact ⟨some .split_video,
                    by unfold getType
                       rw [if_neg h1, if_neg h2, if_pos h3,
                         if_neg (by simp [ht]), if_neg (by simp [hfv]), hb]
                       simp [hs]⟩
                · exact ⟨none,
                    by unfold getType
                       rw [if_neg h1, if_neg h2, if_pos h3,
                         if_neg (by simp [ht]), if_neg (by simp [hfv]), hb]
                       simp [hs]⟩
        · by_cases h4 : sufOf f.name = ".aac".data
          · by_cases hfa : isFullAudio f = true
            · exact ⟨some .full_audio,
                by unfold getType
                   rw [if_neg h1, if_neg h2, if_neg h3, if_pos h4,
                     if_pos hfa]⟩
            · obtain ⟨b, hb⟩ := isValidAudio_ok h
              cases b with
              | true =>
                exact ⟨some .audio,
                  by unfold getType
                     rw [if_neg h1, if_neg h2, if_neg h3, if_pos h4,
                       if_neg (by simp [hfa]), hb]⟩
              | false =>
                exact ⟨none,
                  by unfold getType
                     rw [if_neg h1, if_neg h2, if_neg h3, if_pos h4,
                       if_neg (by simp [hfa]), hb]⟩
          · exact ⟨none,
              by unfold getType
                 rw [if_neg h1, if_neg h2, if_neg h3, if_neg h4]⟩

theorem getType_total_characterization_witness :
    getType ⟨[], "notes.txt".data⟩ = .ok none
    ∧ ∃ r, getType ⟨[], "rach3_2023-05-01_a01.mid".data⟩ = .ok r :=
  ⟨getType_total_characterization.1 ⟨[], "notes.txt".data⟩
      (by decide) (by decide) (by decide) (by decide),
   getType_total_characterization.2 ⟨[], "rach3_2023-05-01_a01.mid".data⟩
      (by decide)⟩

/-- Claim C2, counterexample: on `a_.mid` the stem's last token is empty
and the suffix is `.mid`, so `is_valid_midi` evaluates `[-1][0]` on an
empty string and `get_type` raises IndexError instead of returning a tag
or the no-match value. -/
theorem getType_empty_last_token_raises :
    getType ⟨[], "a_.mid".data⟩ = .error .indexError := rfl

/-- Claim C3: for `.mp4` paths the classifier evaluates `is_trimmed`, then
`is_full_video`, then `is_valid_video`, then `is_split`, returning the tag
of the first predicate that holds; in particular a path satisfying
`is_trimmed` classifies as trimmed_video and never as full_video, even when
`is_full_video` also holds. -/
theorem getType_mp4_priority (f : PyPath)
    (hsuf : sufOf f.name = ".mp4".data) :
    (isTrimmed f = true →
        getType f = .ok (some .trimmed_video)
        ∧ getType f ≠ .ok (some .full_video))
    ∧ (isTrimmed f = false → isFullVideo f = true →
        getType f = .ok (some .full_video))
    ∧ (isTrimmed f = false → isFullVideo f = false →
        isValidVideo f = .ok true → getType f = .ok (some .video))
    ∧ (isTrimmed f = false → isFullVideo f = false →
        isValidVideo f = .ok false → isSplit f = true →
        getType f = .ok (some .split_video)) := by
  have hmid : ¬ sufOf f.name = ".mid".data := by rw [hsuf]; decide
  have hflac : ¬ sufOf f.name = ".flac".data := by rw [hsuf]; decide
  refine ⟨?_, ?_, ?_, ?_⟩
  · intro ht
    have he : getType f = .ok (some .trimmed_video) := by
      unfold getType
      rw [if_neg hmid, if_neg hflac, if_pos hsuf, if_pos ht]
    refine ⟨he, ?_⟩
    rw [he]
    simp
  · intro ht hfv
    unfold getType
    rw [if_neg hmid, if_neg hflac, if_pos hsuf, if_neg (by simp [ht]),
      if_pos hfv]
  · intro ht hfv hv
    unfold getType
    rw [if_neg hmid, if_neg hflac, if_pos hsuf, if_neg (by simp [ht]),
      if_neg (by simp [hfv]), hv]
  · intro ht hfv hv hs
    unfold getType
    rw [if_neg hmid, if_neg hflac, if_pos hsuf, if_neg (by simp [ht]),
      if_neg (by simp [hfv]), hv]
    simp [hs]

theorem getType_mp4_priority_witness :
    getType ⟨[], "trimmed_full.mp4".data⟩ = .ok (some .trimmed_video)
    ∧ getType ⟨[], "trimmed_full.mp4".data⟩ ≠ .ok (some .full_video) :=
  (getType_mp4_priority ⟨[], "trimmed_full.mp4".data⟩ rfl).1 rfl
